import Mathlib

/-!
Verification development for the mpf-monorepo plugin framework host.

The C++ sources are shallowly embedded:
* `CrossDllSafety.deepCopy` overloads (src/host/include/cross_dll_safety.h)
  become the `deepCopyS` / `deepCopyL` / `deepCopyB` / `deepCopyM` /
  `deepCopyVL` / `deepCopyV` functions over an inductive `QVariant` model.
* `NavigationService` (navigation_service.cpp) becomes a pure route table
  with `registerRoute` / `getPageUrl`.
* `MenuService` (src/host/src/menu_service.cpp) becomes a state record with
  `registerItem` / `unregisterItem` / `unregisterPlugin` / `updateItem`,
  each also reporting whether the `menuChanged` signal was emitted.
* `PluginManager` phase loops are modelled from the spec (its .cpp is not
  part of the embedded sources); the `Application` driver and destructor
  are embedded from src/host/src/application.cpp.

Qt strings are modelled as lists of characters; `QString::operator<` is
code-point lexicographic comparison `strLt`.
-/

namespace Mpf

/-- Model of `QString`: a list of characters (value semantics). -/
abbrev QStr := List Char

/-- Model of `QByteArray`: a list of byte values. -/
abbrev QBytes := List Nat

/-- Lexicographic strict comparison of strings, modelling `QString::operator<`
(character-by-character comparison of the stored code units). -/
def strLt : QStr → QStr → Bool
  | [], [] => false
  | [], _ :: _ => true
  | _ :: _, [] => false
  | a :: as, b :: bs => if a < b then true else if b < a then false else strLt as bs

theorem strLt_irrefl (s : QStr) : strLt s s = false := by
  induction s with
  | nil => rfl
  | cons a as ih => simp [strLt, ih]

theorem strLt_asymm : ∀ s t : QStr, strLt s t = true → strLt t s = false
  | [], [], h => by simp [strLt] at h
  | [], _ :: _, _ => rfl
  | _ :: _, [], h => by simp [strLt] at h
  | a :: as, b :: bs, h => by
    simp only [strLt] at h ⊢
    by_cases hab : a < b
    · have hba : ¬ b < a := fun hc => absurd (lt_trans hab hc) (lt_irrefl a)
      simp [hab, hba]
    · by_cases hba : b < a
      · simp [hab, hba] at h
      · simp only [hab, hba, if_false] at h ⊢
        exact strLt_asymm as bs h

theorem strLt_trans : ∀ s t u : QStr,
    strLt s t = true → strLt t u = true → strLt s u = true
  | [], _, _ :: _, _, _ => rfl
  | [], [], [], h, _ => by simp [strLt] at h
  | [], _ :: _, [], _, h2 => by simp [strLt] at h2
  | _ :: _, [], _, h1, _ => by simp [strLt] at h1
  | _ :: _, _ :: _, [], _, h2 => by simp [strLt] at h2
  | a :: as, b :: bs, c :: cs, h1, h2 => by
    simp only [strLt] at h1 h2 ⊢
    by_cases hab : a < b
    · by_cases hbc : b < c
      · simp [lt_trans hab hbc]
      · by_cases hcb : c < b
        · simp [hbc, hcb] at h2
        · have hbc' : b = c := le_antisymm (not_lt.mp hcb) (not_lt.mp hbc)
          subst hbc'
          simp [hab]
    · by_cases hba : b < a
      · simp [hab, hba] at h1
      · have hab' : a = b := le_antisymm (not_lt.mp hba) (not_lt.mp hab)
        subst hab'
        rw [if_neg (lt_irrefl a), if_neg (lt_irrefl a)] at h1
        by_cases hac : a < c
        · simp [hac]
        · by_cases hca : c < a
          · simp [hac, hca] at h2
          · rw [if_neg hac, if_neg hca] at h2 ⊢
            exact strLt_trans as bs cs h1 h2

theorem strLt_total : ∀ s t : QStr, strLt s t = false → strLt t s = false → s = t
  | [], [], _, _ => rfl
  | [], _ :: _, h1, _ => by simp [strLt] at h1
  | _ :: _, [], _, h2 => by simp [strLt] at h2
  | a :: as, b :: bs, h1, h2 => by
    simp only [strLt] at h1 h2
    by_cases hab : a < b
    · simp [hab] at h1
    · by_cases hba : b < a
      · simp [hab, hba] at h2
      · have hab' : a = b := le_antisymm (not_lt.mp hba) (not_lt.mp hab)
        subst hab'
        rw [if_neg (lt_irrefl a), if_neg (lt_irrefl a)] at h1
        rw [if_neg (lt_irrefl a), if_neg (lt_irrefl a)] at h2
        exact congrArg (a :: ·) (strLt_total as bs h1 h2)

/-! ## Cross-DLL safety deep copies (src/host/include/cross_dll_safety.h) -/

/-- Embeds `CrossDllSafety::deepCopy(const QString&)`: empty strings map to a
fresh empty string, otherwise the `size` characters at `constData` are copied
into a newly constructed string. -/
def deepCopyS (s : QStr) : QStr :=
  if s.isEmpty then [] else s.take s.length

/-- Embeds `CrossDllSafety::deepCopy(const QStringList&)`: a fresh list built
by appending `deepCopy` of each element in order. -/
def deepCopyL (l : List QStr) : List QStr :=
  l.map deepCopyS

/-- Embeds `CrossDllSafety::deepCopy(const QByteArray&)`: empty byte arrays map
to a fresh empty array, otherwise the bytes are copied. -/
def deepCopyB (b : QBytes) : QBytes :=
  if b.isEmpty then [] else b.take b.length

theorem deepCopyS_eq (s : QStr) : deepCopyS s = s := by
  cases s with
  | nil => rfl
  | cons a as => simp [deepCopyS, List.take_length]

theorem deepCopyL_eq (l : List QStr) : deepCopyL l = l := by
  induction l with
  | nil => rfl
  | cons s rest ih => simp [deepCopyL, deepCopyS_eq] at ih ⊢; exact ih

theorem deepCopyB_eq (b : QBytes) : deepCopyB b = b := by
  cases b with
  | nil => rfl
  | cons a as => simp [deepCopyB, List.take_length]

/-- Model of `QVariant`: the value kinds `CrossDllSafety::deepCopy` switches
on, plus `invalid` (a default-constructed variant) and `prim tag payload` for
every other `typeId` (ints, doubles, bools, custom types …), carrying the type
tag and an abstract payload. An ordered key-value map (`QVariantMap`) is a
list of key-value pairs kept sorted by key, as `QMap` stores it. -/
inductive QVariant where
  | invalid : QVariant
  | qstring : QStr → QVariant
  | qstringList : List QStr → QVariant
  | qbyteArray : QBytes → QVariant
  | qvariantMap : List (QStr × QVariant) → QVariant
  | qvariantList : List QVariant → QVariant
  | prim : Nat → Int → QVariant

/-- Model of `QVariantMap` (`QMap<QString, QVariant>`) contents: the stored
key-value list, ascending by key. -/
abbrev VMap := List (QStr × QVariant)

/-- Embeds `QMap::insert`: keeps the list sorted ascending by key and replaces
the value when the key is already present. -/
def minsert (k : QStr) (v : QVariant) : VMap → VMap
  | [] => [(k, v)]
  | (k', v') :: rest =>
    if strLt k k' then (k, v) :: (k', v') :: rest
    else if k = k' then (k, v) :: rest
    else (k', v') :: minsert k v rest

mutual

/-- Embeds `CrossDllSafety::deepCopy(const QVariant&)`: invalid variants map
to a fresh invalid variant; strings, string lists, byte arrays, maps and lists
are rebuilt recursively; every other type id is returned unchanged. -/
def deepCopyV : QVariant → QVariant
  | .invalid => .invalid
  | .qstring s => .qstring (deepCopyS s)
  | .qstringList l => .qstringList (deepCopyL l)
  | .qbyteArray b => .qbyteArray (deepCopyB b)
  | .qvariantMap m => .qvariantMap (deepCopyMGo m [])
  | .qvariantList l => .qvariantList (deepCopyVL l)
  | .prim t p => .prim t p

/-- Embeds the loop of `CrossDllSafety::deepCopy(const QVariantMap&)`:
iterates over the stored (key-ascending) entries and inserts a deep copy of
each key and value into the freshly built result map. -/
def deepCopyMGo : List (QStr × QVariant) → VMap → VMap
  | [], acc => acc
  | (k, v) :: rest, acc => deepCopyMGo rest (minsert (deepCopyS k) (deepCopyV v) acc)

/-- Embeds the loop of `CrossDllSafety::deepCopy(const QVariantList&)`:
appends a deep copy of each element in order. -/
def deepCopyVL : List QVariant → List QVariant
  | [] => []
  | v :: vs => deepCopyV v :: deepCopyVL vs

end

/-- Embeds `CrossDllSafety::deepCopy(const QVariantMap&)` as called on a map
value directly. -/
def deepCopyM (m : VMap) : VMap := deepCopyMGo m []

/-- Keys of a stored map are strictly ascending, the representation invariant
every real `QMap` maintains. -/
def keysSortedB : VMap → Bool
  | [] => true
  | [_] => true
  | (k, _) :: (k', v') :: rest => strLt k k' && keysSortedB ((k', v') :: rest)

mutual

/-- Well-formedness of a modelled `QVariant`: every embedded map is stored
with strictly ascending keys, as a real `QMap` is. -/
def VWF : QVariant → Bool
  | .qvariantMap m => keysSortedB m && VWFM m
  | .qvariantList l => VWFL l
  | _ => true

/-- Well-formedness of every value stored in a map. -/
def VWFM : List (QStr × QVariant) → Bool
  | [] => true
  | (_, v) :: rest => VWF v && VWFM rest

/-- Well-formedness of every element of a variant list. -/
def VWFL : List QVariant → Bool
  | [] => true
  | v :: vs => VWF v && VWFL vs

end

theorem keysSortedB_cons_iff : ∀ (rest : VMap) (k : QStr) (v : QVariant),
    keysSortedB ((k, v) :: rest) = true ↔
      ((∀ f ∈ rest, strLt k f.1 = true) ∧ keysSortedB rest = true) := by
  intro rest
  induction rest with
  | nil => intro k v; simp [keysSortedB]
  | cons e rest' ih =>
    intro k v
    obtain ⟨k', v'⟩ := e
    constructor
    · intro h
      simp only [keysSortedB, Bool.and_eq_true] at h
      obtain ⟨hkk', hrest⟩ := h
      have htail := (ih k' v').mp hrest
      refine ⟨?_, hrest⟩
      intro f hf
      rcases List.mem_cons.mp hf with hf | hf
      · subst hf; exact hkk'
      · exact strLt_trans _ _ _ hkk' (htail.1 f hf)
    · intro h
      simp only [keysSortedB, Bool.and_eq_true]
      exact ⟨h.1 (k', v') (List.mem_cons_self _ _), h.2⟩

theorem mem_minsert : ∀ (acc : VMap) (k : QStr) (v : QVariant) (f : QStr × QVariant),
    f ∈ minsert k v acc → f = (k, v) ∨ f ∈ acc := by
  intro acc
  induction acc with
  | nil => intro k v f hf; simp [minsert] at hf; exact Or.inl hf
  | cons e rest ih =>
    intro k v f hf
    obtain ⟨k', v'⟩ := e
    simp only [minsert] at hf
    by_cases h1 : strLt k k'
    · simp only [h1, if_true] at hf
      rcases List.mem_cons.mp hf with hf | hf
      · exact Or.inl hf
      · exact Or.inr hf
    · simp only [h1, if_false] at hf
      by_cases h2 : k = k'
      · simp only [h2, if_true] at hf
        rcases List.mem_cons.mp hf with hf | hf
        · subst h2; exact Or.inl hf
        · exact Or.inr (List.mem_cons_of_mem _ hf)
      · simp only [h2, if_false] at hf
        rcases List.mem_cons.mp hf with hf | hf
        · exact Or.inr (by simp [hf])
        · rcases ih k v f hf with h | h
          · exact Or.inl h
          · exact Or.inr (List.mem_cons_of_mem _ h)

theorem strLt_of_not_of_ne {a b : QStr} (h1 : strLt a b = false) (h2 : a ≠ b) :
    strLt b a = true := by
  by_cases h : strLt b a
  · exact h
  · exact absurd (strLt_total a b h1 (Bool.not_eq_true _ ▸ eq_false_of_ne_true h)) h2

theorem minsert_sorted : ∀ (acc : VMap) (k : QStr) (v : QVariant),
    keysSortedB acc = true → keysSortedB (minsert k v acc) = true := by
  intro acc
  induction acc with
  | nil => intro k v _; rfl
  | cons e rest ih =>
    intro k v h
    obtain ⟨k', v'⟩ := e
    have hh := (keysSortedB_cons_iff rest k' v').mp h
    simp only [minsert]
    by_cases h1 : strLt k k'
    · simp only [h1, if_true]
      refine (keysSortedB_cons_iff _ k v).mpr ⟨?_, h⟩
      intro f hf
      rcases List.mem_cons.mp hf with hf | hf
      · subst hf; exact h1
      · exact strLt_trans _ _ _ h1 (hh.1 f hf)
    · simp only [h1, if_false]
      by_cases h2 : k = k'
      · simp only [h2, if_true]
        subst h2
        exact (keysSortedB_cons_iff _ k v).mpr ⟨hh.1, hh.2⟩
      · simp only [h2, if_false]
        refine (keysSortedB_cons_iff _ k' v').mpr ⟨?_, ih k v hh.2⟩
        intro f hf
        rcases mem_minsert rest k v f hf with hf | hf
        · subst hf; exact strLt_of_not_of_ne (eq_false_of_ne_true h1) h2
        · exact hh.1 f hf

theorem minsert_append (acc : VMap) (k : QStr) (v : QVariant)
    (h : ∀ e ∈ acc, strLt e.1 k = true) : minsert k v acc = acc ++ [(k, v)] := by
  induction acc with
  | nil => rfl
  | cons e rest ih =>
    obtain ⟨k', v'⟩ := e
    have hk' : strLt k' k = true := h (k', v') (List.mem_cons_self _ _)
    have h1 : strLt k k' = false := strLt_asymm _ _ hk'
    have h2 : k ≠ k' := by
      intro hkk
      subst hkk
      exact absurd hk' (by simp [strLt_irrefl])
    rw [minsert, if_neg (by simp [h1]), if_neg h2, List.cons_append]
    exact congrArg (List.cons (k', v')) (ih fun e he => h e (List.mem_cons_of_mem _ he))

theorem deepCopyMGo_sorted : ∀ (m : List (QStr × QVariant)) (acc : VMap),
    keysSortedB acc = true → keysSortedB (deepCopyMGo m acc) = true := by
  intro m
  induction m with
  | nil => intro acc h; simpa [deepCopyMGo] using h
  | cons e rest ih =>
    intro acc h
    obtain ⟨k, v⟩ := e
    rw [deepCopyMGo]
    exact ih _ (minsert_sorted acc _ _ h)

theorem mem_deepCopyMGo : ∀ (m : List (QStr × QVariant)) (acc : VMap)
    (e : QStr × QVariant), e ∈ deepCopyMGo m acc →
    e ∈ acc ∨ ∃ f ∈ m, e = (deepCopyS f.1, deepCopyV f.2) := by
  intro m
  induction m with
  | nil => intro acc e he; rw [deepCopyMGo] at he; exact Or.inl he
  | cons f rest ih =>
    intro acc e he
    obtain ⟨k, v⟩ := f
    rw [deepCopyMGo] at he
    rcases ih _ e he with h | h
    · rcases mem_minsert _ _ _ _ h with h' | h'
      · exact Or.inr ⟨(k, v), List.mem_cons_self _ _, h'⟩
      · exact Or.inl h'
    · obtain ⟨g, hg, hge⟩ := h
      exact Or.inr ⟨g, List.mem_cons_of_mem _ hg, hge⟩

theorem deepCopyMGo_id : ∀ (m : List (QStr × QVariant)) (acc : VMap),
    (∀ e ∈ acc, ∀ f ∈ m, strLt e.1 f.1 = true) →
    keysSortedB m = true →
    (∀ f ∈ m, deepCopyV f.2 = f.2) →
    deepCopyMGo m acc = acc ++ m := by
  intro m
  induction m with
  | nil => intro acc _ _ _; rw [deepCopyMGo]; simp
  | cons e rest ih =>
    intro acc hlt hs hid
    obtain ⟨k, v⟩ := e
    have hsv := (keysSortedB_cons_iff rest k v).mp hs
    rw [deepCopyMGo, deepCopyS_eq, hid (k, v) (List.mem_cons_self _ _)]
    rw [minsert_append acc k v (fun f hf => hlt f hf (k, v) (List.mem_cons_self _ _))]
    rw [ih (acc ++ [(k, v)]) ?_ hsv.2 (fun f hf => hid f (List.mem_cons_of_mem _ hf))]
    · simp
    · intro f hf g hg
      rcases List.mem_append.mp hf with hf' | hf'
      · exact hlt f hf' g (List.mem_cons_of_mem _ hg)
      · have : f = (k, v) := by simpa using hf'
        subst this
        exact hsv.1 g hg

theorem VWFM_iff : ∀ m : List (QStr × QVariant),
    VWFM m = true ↔ ∀ e ∈ m, VWF e.2 = true := by
  intro m
  induction m with
  | nil => simp [VWFM]
  | cons e rest ih =>
    obtain ⟨k, v⟩ := e
    rw [VWFM]
    simp only [Bool.and_eq_true, ih]
    constructor
    · rintro ⟨h1, h2⟩ f hf
      rcases List.mem_cons.mp hf with hf | hf
      · subst hf; exact h1
      · exact h2 f hf
    · intro h
      exact ⟨h (k, v) (List.mem_cons_self _ _), fun f hf => h f (List.mem_cons_of_mem _ hf)⟩

theorem VWFL_iff : ∀ l : List QVariant,
    VWFL l = true ↔ ∀ v ∈ l, VWF v = true := by
  intro l
  induction l with
  | nil => simp [VWFL]
  | cons v rest ih =>
    rw [VWFL]
    simp only [Bool.and_eq_true, ih]
    constructor
    · rintro ⟨h1, h2⟩ w hw
      rcases List.mem_cons.mp hw with hw | hw
      · subst hw; exact h1
      · exact h2 w hw
    · intro h
      exact ⟨h v (List.mem_cons_self _ _), fun w hw => h w (List.mem_cons_of_mem _ hw)⟩

theorem deepCopyVL_eq_map : ∀ l : List QVariant, deepCopyVL l = l.map deepCopyV := by
  intro l
  induction l with
  | nil => rw [deepCopyVL]; rfl
  | cons v rest ih => rw [deepCopyVL, ih]; rfl

theorem sizeOf_snd_lt {m : List (QStr × QVariant)} {e : QStr × QVariant}
    (h : e ∈ m) : sizeOf e.2 < sizeOf m := by
  have h1 : sizeOf e < sizeOf m := List.sizeOf_lt_of_mem h
  obtain ⟨a, b⟩ := e
  simp only [Prod.mk.sizeOf_spec] at h1
  simp only
  omega

/-- Identity of `deepCopyV` on well-formed variants, proved by strong
induction on the size of the value. -/
theorem deepCopyV_eq_of_wf_aux : ∀ (n : Nat) (v : QVariant), sizeOf v < n →
    VWF v = true → deepCopyV v = v := by
  intro n
  induction n with
  | zero => intro v h; omega
  | succ n ih =>
    intro v hs hwf
    match v with
    | .invalid => rw [deepCopyV]
    | .qstring s => rw [deepCopyV, deepCopyS_eq]
    | .qstringList l => rw [deepCopyV, deepCopyL_eq]
    | .qbyteArray b => rw [deepCopyV, deepCopyB_eq]
    | .prim t p => rw [deepCopyV]
    | .qvariantMap m =>
      rw [VWF, Bool.and_eq_true] at hwf
      rw [deepCopyV]
      have hid : ∀ f ∈ m, deepCopyV f.2 = f.2 := by
        intro f hf
        have hsz : sizeOf f.2 < n := by
          have h1 : sizeOf f.2 < sizeOf m := sizeOf_snd_lt hf
          have h2 : sizeOf (QVariant.qvariantMap m) = 1 + sizeOf m := by
            simp
          omega
        exact ih f.2 hsz ((VWFM_iff m).mp hwf.2 f hf)
      rw [deepCopyMGo_id m [] (by intro e he; simp at he) hwf.1 hid]
      rfl
    | .qvariantList l =>
      rw [VWF] at hwf
      rw [deepCopyV, deepCopyVL_eq_map]
      have : ∀ w ∈ l, deepCopyV w = w := by
        intro w hw
        have hsz : sizeOf w < n := by
          have h1 : sizeOf w < sizeOf l := List.sizeOf_lt_of_mem hw
          have h2 : sizeOf (QVariant.qvariantList l) = 1 + sizeOf l := by
            simp
          omega
        exact ih w hsz ((VWFL_iff l).mp hwf w hw)
      rw [List.map_congr_left this]
      simp

/-- The `deepCopy` of any well-formed variant is value-equal to the input. -/
theorem deepCopyV_eq_of_wf (v : QVariant) (h : VWF v = true) : deepCopyV v = v :=
  deepCopyV_eq_of_wf_aux (sizeOf v + 1) v (Nat.lt_succ_self _) h

/-- Outputs of `deepCopyV` are always well-formed, by strong induction on
the size of the value. -/
theorem deepCopyV_wf_aux : ∀ (n : Nat) (v : QVariant), sizeOf v < n →
    VWF (deepCopyV v) = true := by
  intro n
  induction n with
  | zero => intro v h; omega
  | succ n ih =>
    intro v hs
    match v with
    | .invalid => rw [deepCopyV]; rfl
    | .qstring s => rw [deepCopyV]; rfl
    | .qstringList l => rw [deepCopyV]; rfl
    | .qbyteArray b => rw [deepCopyV]; rfl
    | .prim t p => rw [deepCopyV]; rfl
    | .qvariantMap m =>
      rw [deepCopyV, VWF, Bool.and_eq_true]
      constructor
      · exact deepCopyMGo_sorted m [] rfl
      · rw [VWFM_iff]
        intro e he
        rcases mem_deepCopyMGo m [] e he with h | h
        · simp at h
        · obtain ⟨f, hf, hfe⟩ := h
          subst hfe
          have hsz : sizeOf f.2 < n := by
            have h1 : sizeOf f.2 < sizeOf m := sizeOf_snd_lt hf
            have h2 : sizeOf (QVariant.qvariantMap m) = 1 + sizeOf m := by
              simp
            omega
          exact ih f.2 hsz
    | .qvariantList l =>
      rw [deepCopyV, VWF, VWFL_iff]
      intro w hw
      rw [deepCopyVL_eq_map] at hw
      obtain ⟨u, hu, hue⟩ := List.mem_map.mp hw
      subst hue
      have hsz : sizeOf u < n := by
        have h1 : sizeOf u < sizeOf l := List.sizeOf_lt_of_mem hu
        have h2 : sizeOf (QVariant.qvariantList l) = 1 + sizeOf l := by
          simp
        omega
      exact ih u hsz

theorem deepCopyV_wf (v : QVariant) : VWF (deepCopyV v) = true :=
  deepCopyV_wf_aux (sizeOf v + 1) v (Nat.lt_succ_self _)

/-- Applying `deepCopy` twice to a variant yields the same value as applying
it once. -/
theorem deepCopyV_idem (v : QVariant) : deepCopyV (deepCopyV v) = deepCopyV v :=
  deepCopyV_eq_of_wf _ (deepCopyV_wf v)

theorem deepCopyM_idem (m : VMap) : deepCopyM (deepCopyM m) = deepCopyM m := by
  unfold deepCopyM
  rw [deepCopyMGo_id (deepCopyMGo m []) [] (by intro e he; simp at he)
    (deepCopyMGo_sorted m [] rfl)]
  · rfl
  · intro f hf
    rcases mem_deepCopyMGo m [] f hf with h | h
    · simp at h
    · obtain ⟨g, _, hge⟩ := h
      subst hge
      exact deepCopyV_idem g.2

theorem deepCopyVL_idem (l : List QVariant) :
    deepCopyVL (deepCopyVL l) = deepCopyVL l := by
  rw [deepCopyVL_eq_map, deepCopyVL_eq_map, List.map_map]
  exact List.map_congr_left fun v _ => deepCopyV_idem v

/-! ## NavigationService (navigation_service.cpp) -/

/-- One `RouteEntry` of `NavigationService`: a route pattern and the page URL
registered for it. -/
structure RouteEntry where
  pattern : QStr
  pageUrl : QStr
  deriving DecidableEq, Repr

/-- The `m_routes` table of `NavigationService`. -/
abbrev NavState := List RouteEntry

/-- Log messages emitted by `getPageUrl`: a debug line on a hit, a warning on
a miss; the function has no fatal path. -/
inductive NavLog where
  | debug : NavLog
  | warning : NavLog
  deriving DecidableEq, Repr

/-- Embeds `NavigationService::registerRoute`: appends a deep-copied entry to
the route table, never replacing an existing entry. -/
def registerRoute (st : NavState) (route qmlPageUrl : QStr) : NavState :=
  st ++ [⟨deepCopyS route, deepCopyS qmlPageUrl⟩]

/-- Embeds the lookup loop of `NavigationService::getPageUrl`: returns the
deep copy of the page URL of the first entry whose pattern equals the looked
up route (with a debug log), or the null string with a warning. -/
def findPageUrl : List RouteEntry → QStr → QStr × List NavLog
  | [], _ => ([], [NavLog.warning])
  | e :: rest, route =>
    if e.pattern = route then (deepCopyS e.pageUrl, [NavLog.debug])
    else findPageUrl rest route

/-- Embeds `NavigationService::getPageUrl`, a `const` method: it returns the
route table unchanged together with the looked-up URL and the log lines the
call emits. -/
def getPageUrl (st : NavState) (route : QStr) : NavState × QStr × List NavLog :=
  (st, findPageUrl st route)

/-- Applies a sequence of `registerRoute` calls (pattern, pageUrl) in order. -/
def applyRegisterRoutes (st : NavState) (calls : List (QStr × QStr)) : NavState :=
  calls.foldl (fun s c => registerRoute s c.1 c.2) st

theorem applyRegisterRoutes_eq (st : NavState) (calls : List (QStr × QStr)) :
    applyRegisterRoutes st calls = st ++ calls.map (fun c => ⟨c.1, c.2⟩) := by
  induction calls generalizing st with
  | nil => simp [applyRegisterRoutes]
  | cons c rest ih =>
    simp only [applyRegisterRoutes, List.foldl_cons] at ih ⊢
    rw [ih, registerRoute, deepCopyS_eq, deepCopyS_eq, List.map_cons,
      List.append_assoc, List.singleton_append]

/-! ## Plugin manager lifecycle and the application driver
(src/host/src/application.cpp; the PluginManager phase loops themselves are
modelled from the spec because plugin_manager.cpp is not among the embedded
sources). -/

/-- Lifecycle states of the plugin state machine (spec §4.3). -/
inductive PState where
  | Discovered : PState
  | Loaded : PState
  | Initialized : PState
  | Started : PState
  | Stopped : PState
  | Unloaded : PState
  | Failed : PState
  deriving DecidableEq, Repr

/-- One discovered module: its identity and priority, the injected outcome of
each lifecycle step (whether resolving the entry point, `initialize()` and
`start()` would succeed), and its current state. -/
structure PluginModule where
  id : QStr
  priority : Int
  loadOk : Bool
  initOk : Bool
  startOk : Bool
  state : PState
  deriving DecidableEq, Repr

/-- The PluginManager's record list, one entry per discovered module. -/
structure PMState where
  modules : List PluginModule
  deriving DecidableEq, Repr

/-- Modelled from the spec: `PluginManager::loadAll` (plugin_manager.cpp is
not among the embedded sources). Each `Discovered` module independently
becomes `Loaded` on success or `Failed` on an entry-point resolution failure;
other modules continue; the returned flag is true only if every module in the
phase succeeded. The per-module outcome does not depend on the iteration
order, so the priority-ordered loop is embedded as a map over the records. -/
def loadAll (pm : PMState) : PMState × Bool :=
  (⟨pm.modules.map fun m =>
      if m.state = PState.Discovered then
        if m.loadOk then { m with state := PState.Loaded }
        else { m with state := PState.Failed }
      else m⟩,
   pm.modules.all fun m => m.state ≠ PState.Discovered || m.loadOk)

/-- Modelled from the spec: `PluginManager::initializeAll`. Each `Loaded`
module becomes `Initialized` or `Failed`; others continue; the flag is true
only if every module in the phase succeeded. -/
def initializeAll (pm : PMState) : PMState × Bool :=
  (⟨pm.modules.map fun m =>
      if m.state = PState.Loaded then
        if m.initOk then { m with state := PState.Initialized }
        else { m with state := PState.Failed }
      else m⟩,
   pm.modules.all fun m => m.state ≠ PState.Loaded || m.initOk)

/-- Modelled from the spec: `PluginManager::startAll`. Each `Initialized`
module becomes `Started` or `Failed`; others continue; the flag is true only
if every module in the phase succeeded. -/
def startAll (pm : PMState) : PMState × Bool :=
  (⟨pm.modules.map fun m =>
      if m.state = PState.Initialized then
        if m.startOk then { m with state := PState.Started }
        else { m with state := PState.Failed }
      else m⟩,
   pm.modules.all fun m => m.state ≠ PState.Initialized || m.startOk)

/-- Embeds the phase chain of `Application::loadPlugins` (application.cpp):
`startAll` runs only if `initializeAll` returned true, which runs only if
`loadAll` returned true. -/
def loadPlugins (pm : PMState) : PMState :=
  let r1 := loadAll pm
  if r1.2 then
    let r2 := initializeAll r1.1
    if r2.2 then (startAll r2.1).1 else r2.1
  else r1.1

/-- The state of the module with the given id. -/
def stateOf (pm : PMState) (id : QStr) : Option PState :=
  (pm.modules.find? fun m => m.id = id).map PluginModule.state

/-- The whole-system teardown calls of `Application::~Application`. -/
inductive TeardownCall where
  | stopAll : TeardownCall
  | unloadAll : TeardownCall
  deriving DecidableEq, Repr

/-- Embeds the destructor body of `Application::~Application`: when a plugin
manager exists it calls `stopAll` and then `unloadAll`, with no condition on
any earlier phase result; without a plugin manager it calls nothing. -/
def appDtorTeardown : Option PMState → List TeardownCall
  | some _ => [TeardownCall.stopAll, TeardownCall.unloadAll]
  | none => []

/-! ## MenuService (src/host/src/menu_service.cpp) -/

/-- The `MenuItem` record (menu_service.h data model). -/
structure MenuItem where
  id : QStr
  label : QStr
  icon : QStr
  route : QStr
  group : QStr
  order : Int
  enabled : Bool
  badge : QStr
  pluginId : QStr
  deriving DecidableEq, Repr

instance : Inhabited MenuItem :=
  ⟨⟨[], [], [], [], [], 0, true, [], []⟩⟩

/-- Embeds the file-static `deepCopyItem`: deep-copies every string field. -/
def deepCopyItem (item : MenuItem) : MenuItem :=
  { id := deepCopyS item.id
    label := deepCopyS item.label
    icon := deepCopyS item.icon
    route := deepCopyS item.route
    group := deepCopyS item.group
    order := item.order
    enabled := item.enabled
    badge := deepCopyS item.badge
    pluginId := deepCopyS item.pluginId }

theorem deepCopyItem_eq (item : MenuItem) : deepCopyItem item = item := by
  simp [deepCopyItem, deepCopyS_eq]

/-- The comparator of `MenuService::sortItems`: first by group, then by
order, then by label. -/
def menuLt (a b : MenuItem) : Bool :=
  if a.group ≠ b.group then strLt a.group b.group
  else if a.order ≠ b.order then decide (a.order < b.order)
  else strLt a.label b.label

/-- The non-strict companion of `menuLt`: `a` need not come after `b`. A
stable sort with comparator `menuLt` produces a list that is pairwise
`menuLe`. -/
def menuLe (a b : MenuItem) : Bool := ! menuLt b a

/-- Insertion of one element into a sorted list, placing `x` before the first
`y` that is not strictly below it — exactly where `std::stable_sort` leaves
an element relative to its equivalents. -/
def insertSorted (x : MenuItem) : List MenuItem → List MenuItem
  | [] => [x]
  | y :: ys => if menuLe x y then x :: y :: ys else y :: insertSorted x ys

/-- Embeds `MenuService::sortItems` (`std::stable_sort` with `menuLt`) as a
stable insertion sort; for a strict weak order the stable-sorted result is
unique, so the two agree. -/
def sortItems : List MenuItem → List MenuItem
  | [] => []
  | x :: xs => insertSorted x (sortItems xs)

/-- Model of `QHash<QString, int>` insertion (`operator[] =`): replaces the
entry for the key or adds one. -/
def hinsert (k : QStr) (v : Nat) : List (QStr × Nat) → List (QStr × Nat)
  | [] => [(k, v)]
  | (k', v') :: rest => if k' = k then (k, v) :: rest else (k', v') :: hinsert k v rest

/-- Model of `QHash` lookup. -/
def hlookup (m : List (QStr × Nat)) (k : QStr) : Option Nat :=
  (m.find? fun e => e.1 = k).map Prod.snd

/-- Model of `QHash::contains`. -/
def hcontains (m : List (QStr × Nat)) (k : QStr) : Bool :=
  (hlookup m k).isSome

/-- Embeds the index-rebuild loop `for i: m_indexMap[m_items[i].id] = i`. -/
def rebuildIndexGo : List MenuItem → Nat → List (QStr × Nat) → List (QStr × Nat)
  | [], _, m => m
  | it :: rest, i, m => rebuildIndexGo rest (i + 1) (hinsert it.id i m)

/-- The index map rebuilt from scratch (`m_indexMap.clear()` + loop). -/
def rebuildIndex (items : List MenuItem) : List (QStr × Nat) :=
  rebuildIndexGo items 0 []

/-- The mutable state of `MenuService`: the item list and the id-to-index
map. -/
structure MenuState where
  items : List MenuItem
  indexMap : List (QStr × Nat)
  deriving DecidableEq, Repr

/-- The freshly constructed `MenuService`. -/
def menuInit : MenuState := ⟨[], []⟩

/-- Embeds `MenuService::registerItem`. Result: (state, return value,
whether `menuChanged` was emitted). Rejects an empty id and a duplicate id
(checked against the index map) without touching the state; otherwise appends
a deep copy, re-sorts, rebuilds the index map and emits `menuChanged`. -/
def registerItem (st : MenuState) (item : MenuItem) : MenuState × Bool × Bool :=
  if item.id.isEmpty then (st, false, false)
  else if hcontains st.indexMap item.id then (st, false, false)
  else
    let items := sortItems (st.items ++ [deepCopyItem item])
    (⟨items, rebuildIndex items⟩, true, true)

/-- Embeds `MenuService::unregisterItem`. Result: (state, whether
`menuChanged` was emitted). Erases the first item with the id and rebuilds
the index map when one exists. -/
def unregisterItem (st : MenuState) (id : QStr) : MenuState × Bool :=
  if st.items.any fun it => it.id = id then
    let items := st.items.eraseP fun it => it.id = id
    (⟨items, rebuildIndex items⟩, true)
  else (st, false)

/-- Embeds `MenuService::unregisterPlugin`. Result: (state, whether
`menuChanged` was emitted). Removes every item of the plugin
(`std::remove_if` + erase) and emits only when at least one was removed. -/
def unregisterPlugin (st : MenuState) (pluginId : QStr) : MenuState × Bool :=
  if st.items.any fun it => it.pluginId = pluginId then
    let items := st.items.filter fun it => !(it.pluginId = pluginId)
    (⟨items, rebuildIndex items⟩, true)
  else (st, false)

/-- Model of `QMap<QString, QVariant>` lookup on the updates map. -/
def mlookup (m : VMap) (k : QStr) : Option QVariant :=
  (m.find? fun e => e.1 = k).map Prod.snd

/-- Model of `QMap::contains`. -/
def mcontains (m : VMap) (k : QStr) : Bool :=
  (mlookup m k).isSome

/-- Model of `QMap::operator[] const`: the stored value, or a
default-constructed (invalid) `QVariant` when the key is absent. -/
def mvalue (m : VMap) (k : QStr) : QVariant :=
  (mlookup m k).getD QVariant.invalid

/-- Modelled Qt conversion `QVariant::toString`: a string variant yields its
string and a default-constructed variant yields the null string. Conversions
of the remaining kinds are not relied on by any theorem below and are
modelled as the null string. -/
def toQString : QVariant → QStr
  | .qstring s => s
  | _ => []

/-- Modelled Qt conversion `QVariant::toInt`: a numeric variant yields its
payload. Conversions of the remaining kinds are not relied on by any theorem
below and are modelled as zero. -/
def toQInt : QVariant → Int
  | .prim _ p => p
  | _ => 0

/-- Modelled Qt conversion `QVariant::toBool`: a numeric/bool variant is true
when its payload is nonzero. Conversions of the remaining kinds are not
relied on by any theorem below and are modelled as false. -/
def toQBool : QVariant → Bool
  | .prim _ p => ! decide (p = 0)
  | _ => false

/-- Writing through the C++ reference `MenuItem& item = m_items[idx]`: the
write always lands in slot `idx` of the current list, which after an
intervening re-sort may hold a different item than the one looked up. -/
def setSlot (f : MenuItem → MenuItem) : List MenuItem → Nat → List MenuItem
  | [], _ => []
  | x :: xs, 0 => f x :: xs
  | x :: xs, i + 1 => x :: setSlot f xs i

/-- One guarded field write of `MenuService::updateItem`. -/
def stepSlot (c : Bool) (f : MenuItem → MenuItem) (idx : Nat)
    (items : List MenuItem) : List MenuItem :=
  if c then setSlot f items idx else items

/-- Key strings used by `updateItem`. -/
def keyTitle : QStr := "title".toList

def keyLabel : QStr := "label".toList

def keyIcon : QStr := "icon".toList

def keyRoute : QStr := "route".toList

def keyOrder : QStr := "order".toList

def keyEnabled : QStr := "enabled".toList

def keyBadge : QStr := "badge".toList

def keyGroup : QStr := "group".toList

/-- The field writes of `MenuService::updateItem` after the `title` one, in
the source's order: icon, route, order (which re-sorts the list and rebuilds
the index map), enabled, badge, group. Returns the item list and the index
map the call leaves behind (`indexMap0` being the map before the call). -/
def updateTail (u : VMap) (idx : Nat) (items : List MenuItem)
    (indexMap0 : List (QStr × Nat)) : List MenuItem × List (QStr × Nat) :=
  let i2 := stepSlot (mcontains u keyIcon)
    (fun it => { it with icon := toQString (mvalue u keyIcon) }) idx items
  let i3 := stepSlot (mcontains u keyRoute)
    (fun it => { it with route := toQString (mvalue u keyRoute) }) idx i2
  let oi :=
    if mcontains u keyOrder then
      let s := sortItems (setSlot
        (fun it => { it with order := toQInt (mvalue u keyOrder) }) i3 idx)
      (s, rebuildIndex s)
    else (i3, indexMap0)
  let i5 := stepSlot (mcontains u keyEnabled)
    (fun it => { it with enabled := toQBool (mvalue u keyEnabled) }) idx oi.1
  let i6 := stepSlot (mcontains u keyBadge)
    (fun it => { it with badge := toQString (mvalue u keyBadge) }) idx i5
  let i7 := stepSlot (mcontains u keyGroup)
    (fun it => { it with group := toQString (mvalue u keyGroup) }) idx i6
  (i7, oi.2)

/-- Embeds `MenuService::updateItem`. Result: (state, return value, whether
`menuChanged` was emitted). Looks up the index of the id; each present key
updates the item in slot `idx` in the source's order: the `title` key writes
the label from the `label` value, then the writes of `updateTail`. When the
id exists the call always returns true and emits `menuChanged`, whether or
not any key was present. -/
def updateItem (st : MenuState) (id : QStr) (u : VMap) : MenuState × Bool × Bool :=
  match hlookup st.indexMap id with
  | none => (st, false, false)
  | some idx =>
    let i1 := stepSlot (mcontains u keyTitle)
      (fun it => { it with label := toQString (mvalue u keyLabel) }) idx st.items
    let r := updateTail u idx i1 st.indexMap
    (⟨r.1, r.2⟩, true, true)

/-- One `MenuService` call, for reasoning about call sequences. -/
inductive MenuOp where
  | register : MenuItem → MenuOp
  | unregister : QStr → MenuOp
  | unregisterPlugin : QStr → MenuOp
  | update : QStr → VMap → MenuOp

/-- The state after one call (discarding results and signals). -/
def applyMenuOp (st : MenuState) : MenuOp → MenuState
  | .register item => (registerItem st item).1
  | .unregister id => (unregisterItem st id).1
  | .unregisterPlugin pid => (unregisterPlugin st pid).1
  | .update id u => (updateItem st id u).1

/-- The state after a sequence of calls. -/
def applyMenuOps (st : MenuState) (ops : List MenuOp) : MenuState :=
  ops.foldl applyMenuOp st

/-- The ordering invariant claimed for the active item list: sorted by
(group, order, label). -/
def MenuSorted (items : List MenuItem) : Prop :=
  List.Pairwise (fun a b => menuLe a b = true) items

/-- Decidable chain form of the ordering invariant. -/
def isSortedMenu : List MenuItem → Bool
  | [] => true
  | [_] => true
  | a :: b :: rest => menuLe a b && isSortedMenu (b :: rest)

/-- The sort key of an item: the fields the comparator looks at. -/
def menuKeys (a : MenuItem) : QStr × Int × QStr := (a.group, a.order, a.label)

theorem menuLt_congr_left {a a' : MenuItem} (h : menuKeys a = menuKeys a')
    (b : MenuItem) : menuLt a b = menuLt a' b := by
  obtain ⟨hg, ho, hl⟩ : a.group = a'.group ∧ a.order = a'.order ∧ a.label = a'.label := by
    simpa [menuKeys, Prod.ext_iff] using h
  simp [menuLt, hg, ho, hl]

theorem menuLt_congr_right {a a' : MenuItem} (h : menuKeys a = menuKeys a')
    (b : MenuItem) : menuLt b a = menuLt b a' := by
  obtain ⟨hg, ho, hl⟩ : a.group = a'.group ∧ a.order = a'.order ∧ a.label = a'.label := by
    simpa [menuKeys, Prod.ext_iff] using h
  simp [menuLt, hg, ho, hl]

theorem menuLt_iff {a b : MenuItem} : menuLt a b = true ↔
    (strLt a.group b.group = true ∨
      (a.group = b.group ∧ (a.order < b.order ∨
        (a.order = b.order ∧ strLt a.label b.label = true)))) := by
  unfold menuLt
  by_cases hg : a.group = b.group
  · by_cases ho : a.order = b.order
    · simp [hg, ho, strLt_irrefl]
    · simp [hg, ho, strLt_irrefl]
  · simp [hg]

theorem menuLt_asymm {a b : MenuItem} (h : menuLt a b = true) : menuLt b a = false := by
  rw [Bool.eq_false_iff]
  intro h'
  rw [menuLt_iff] at h h'
  rcases h with h | ⟨hg, h⟩ <;> rcases h' with h' | ⟨hg', h'⟩
  · exact absurd (strLt_asymm _ _ h) (by simp [h'])
  · rw [hg'] at h
    simp [strLt_irrefl] at h
  · rw [hg] at h'
    simp [strLt_irrefl] at h'
  · rcases h with h | ⟨ho, h⟩ <;> rcases h' with h' | ⟨ho', h'⟩
    · omega
    · omega
    · omega
    · exact absurd (strLt_asymm _ _ h) (by simp [h'])

theorem menuLt_trans {a b c : MenuItem} (h1 : menuLt a b = true)
    (h2 : menuLt b c = true) : menuLt a c = true := by
  rw [menuLt_iff] at h1 h2 ⊢
  rcases h1 with h1 | ⟨hg1, h1⟩ <;> rcases h2 with h2 | ⟨hg2, h2⟩
  · exact Or.inl (strLt_trans _ _ _ h1 h2)
  · rw [hg2] at h1
    exact Or.inl h1
  · rw [hg1]
    exact Or.inl h2
  · refine Or.inr ⟨hg1.trans hg2, ?_⟩
    rcases h1 with h1 | ⟨ho1, h1⟩ <;> rcases h2 with h2 | ⟨ho2, h2⟩
    · exact Or.inl (by omega)
    · exact Or.inl (by omega)
    · exact Or.inl (by omega)
    · exact Or.inr ⟨ho1.trans ho2, strLt_trans _ _ _ h1 h2⟩

theorem menuLt_keys_eq {a b : MenuItem} (h1 : menuLt a b = false)
    (h2 : menuLt b a = false) : menuKeys a = menuKeys b := by
  rw [Bool.eq_false_iff, Ne, menuLt_iff] at h1 h2
  push_neg at h1 h2
  have hg : a.group = b.group := by
    by_cases hgg : strLt a.group b.group = true
    · exact absurd hgg h1.1
    · by_cases hgg' : strLt b.group a.group = true
      · exact absurd hgg' h2.1
      · exact strLt_total _ _ (eq_false_of_ne_true hgg) (eq_false_of_ne_true hgg')
  have h1' := h1.2 hg
  have h2' := h2.2 hg.symm
  have ho : a.order = b.order := by
    rcases h1' with ⟨hno, _⟩
    rcases h2' with ⟨hno', _⟩
    omega
  have hl : a.label = b.label := by
    have hll := h1.2 hg |>.2 ho
    have hll' := h2.2 hg.symm |>.2 ho.symm
    by_cases hx : strLt a.label b.label = true
    · exact absurd hx hll
    · by_cases hx' : strLt b.label a.label = true
      · exact absurd hx' hll'
      · exact strLt_total _ _ (eq_false_of_ne_true hx) (eq_false_of_ne_true hx')
  simp [menuKeys, hg, ho, hl]

theorem menuLe_total (a b : MenuItem) : menuLe a b = true ∨ menuLe b a = true := by
  unfold menuLe
  by_cases h : menuLt b a = true
  · exact Or.inr (by simp [menuLt_asymm h])
  · exact Or.inl (by simp [eq_false_of_ne_true h])

theorem menuLe_trans {a b c : MenuItem} (h1 : menuLe a b = true)
    (h2 : menuLe b c = true) : menuLe a c = true := by
  unfold menuLe at h1 h2 ⊢
  simp only [Bool.not_eq_true'] at h1 h2 ⊢
  by_cases hca : menuLt c a = true
  · by_cases hab : menuLt a b = true
    · exact absurd (menuLt_trans hca hab) (by simp [h2])
    · have hk := menuLt_keys_eq h1 (eq_false_of_ne_true hab)
      rw [← menuLt_congr_right hk c] at hca
      exact absurd hca (by simp [h2])
  · exact eq_false_of_ne_true hca

theorem menuLe_congr_left {a a' : MenuItem} (h : menuKeys a = menuKeys a')
    (b : MenuItem) : menuLe a b = menuLe a' b := by
  unfold menuLe
  rw [menuLt_congr_right h]

theorem menuLe_congr_right {a a' : MenuItem} (h : menuKeys a = menuKeys a')
    (b : MenuItem) : menuLe b a = menuLe b a' := by
  unfold menuLe
  rw [menuLt_congr_left h]

theorem mem_insertSorted {x b : MenuItem} : ∀ {l : List MenuItem},
    b ∈ insertSorted x l → b = x ∨ b ∈ l := by
  intro l
  induction l with
  | nil => intro h; simp [insertSorted] at h; exact Or.inl h
  | cons y ys ih =>
    intro h
    rw [insertSorted] at h
    by_cases hc : menuLe x y = true
    · rw [if_pos hc] at h
      rcases List.mem_cons.mp h with h | h
      · exact Or.inl h
      · exact Or.inr h
    · rw [if_neg hc] at h
      rcases List.mem_cons.mp h with h | h
      · exact Or.inr (by simp [h])
      · rcases ih h with h' | h'
        · exact Or.inl h'
        · exact Or.inr (List.mem_cons_of_mem _ h')

theorem insertSorted_perm (x : MenuItem) : ∀ l : List MenuItem,
    (insertSorted x l).Perm (x :: l) := by
  intro l
  induction l with
  | nil => rw [insertSorted]
  | cons y ys ih =>
    rw [insertSorted]
    by_cases hc : menuLe x y = true
    · rw [if_pos hc]
    · rw [if_neg hc]
      exact (List.Perm.cons y ih).trans (List.Perm.swap x y ys)

theorem sortItems_perm : ∀ l : List MenuItem, (sortItems l).Perm l := by
  intro l
  induction l with
  | nil => rw [sortItems]
  | cons x xs ih =>
    rw [sortItems]
    exact (insertSorted_perm x (sortItems xs)).trans (List.Perm.cons x ih)

theorem insertSorted_sorted (x : MenuItem) : ∀ {l : List MenuItem},
    MenuSorted l → MenuSorted (insertSorted x l) := by
  intro l
  induction l with
  | nil => intro _; simp [insertSorted, MenuSorted]
  | cons y ys ih =>
    intro h
    rw [MenuSorted, List.pairwise_cons] at h
    rw [insertSorted]
    by_cases hc : menuLe x y = true
    · rw [if_pos hc, MenuSorted, List.pairwise_cons]
      refine ⟨?_, List.pairwise_cons.mpr h⟩
      intro b hb
      rcases List.mem_cons.mp hb with hb | hb
      · subst hb; exact hc
      · exact menuLe_trans hc (h.1 b hb)
    · rw [if_neg hc, MenuSorted, List.pairwise_cons]
      have hyx : menuLe y x = true := by
        rcases menuLe_total x y with h' | h'
        · exact absurd h' hc
        · exact h'
      refine ⟨?_, ih h.2⟩
      intro b hb
      rcases mem_insertSorted hb with hb | hb
      · subst hb; exact hyx
      · exact h.1 b hb

theorem sortItems_sorted : ∀ l : List MenuItem, MenuSorted (sortItems l) := by
  intro l
  induction l with
  | nil => rw [sortItems]; exact List.Pairwise.nil
  | cons x xs ih => rw [sortItems]; exact insertSorted_sorted x ih

theorem isSortedMenu_cons_iff : ∀ (l : List MenuItem) (a : MenuItem),
    isSortedMenu (a :: l) = true ↔
      ((∀ b ∈ l, menuLe a b = true) ∧ isSortedMenu l = true) := by
  intro l
  induction l with
  | nil => intro a; simp [isSortedMenu]
  | cons y ys ih =>
    intro a
    constructor
    · intro h
      rw [isSortedMenu, Bool.and_eq_true] at h
      have htail := (ih y).mp h.2
      refine ⟨?_, h.2⟩
      intro b hb
      rcases List.mem_cons.mp hb with hb | hb
      · subst hb; exact h.1
      · exact menuLe_trans h.1 (htail.1 b hb)
    · intro h
      rw [isSortedMenu, Bool.and_eq_true]
      exact ⟨h.1 y (List.mem_cons_self _ _), h.2⟩

theorem isSortedMenu_iff : ∀ l : List MenuItem,
    isSortedMenu l = true ↔ MenuSorted l := by
  intro l
  induction l with
  | nil => simp [isSortedMenu, MenuSorted]
  | cons a rest ih =>
    rw [isSortedMenu_cons_iff, MenuSorted, List.pairwise_cons, ih]
    rfl

theorem mem_setSlot {f : MenuItem → MenuItem} {b : MenuItem} :
    ∀ (l : List MenuItem) (i : Nat), b ∈ setSlot f l i →
      b ∈ l ∨ ∃ c ∈ l, b = f c := by
  intro l
  induction l with
  | nil => intro i h; rw [setSlot] at h; exact Or.inl h
  | cons x xs ih =>
    intro i h
    match i with
    | 0 =>
      rw [setSlot] at h
      rcases List.mem_cons.mp h with h | h
      · exact Or.inr ⟨x, List.mem_cons_self _ _, h⟩
      · exact Or.inl (List.mem_cons_of_mem _ h)
    | j + 1 =>
      rw [setSlot] at h
      rcases List.mem_cons.mp h with h | h
      · exact Or.inl (by simp [h])
      · rcases ih j h with h' | h'
        · exact Or.inl (List.mem_cons_of_mem _ h')
        · obtain ⟨c, hc, hbc⟩ := h'
          exact Or.inr ⟨c, List.mem_cons_of_mem _ hc, hbc⟩

theorem setSlot_sorted {f : MenuItem → MenuItem}
    (hk : ∀ it, menuKeys (f it) = menuKeys it) :
    ∀ (l : List MenuItem) (i : Nat), MenuSorted l → MenuSorted (setSlot f l i) := by
  intro l
  induction l with
  | nil => intro i h; rw [setSlot]; exact h
  | cons x xs ih =>
    intro i h
    rw [MenuSorted, List.pairwise_cons] at h
    match i with
    | 0 =>
      rw [setSlot, MenuSorted, List.pairwise_cons]
      refine ⟨?_, h.2⟩
      intro b hb
      rw [menuLe_congr_left (hk x)]
      exact h.1 b hb
    | j + 1 =>
      rw [setSlot, MenuSorted, List.pairwise_cons]
      refine ⟨?_, ih j h.2⟩
      intro b hb
      rcases mem_setSlot xs j hb with hb | ⟨c, hc, hbc⟩
      · exact h.1 b hb
      · subst hbc
        rw [menuLe_congr_right (hk c) x]
        exact h.1 c hc

theorem map_setSlot {α : Type} {f : MenuItem → MenuItem} {g : MenuItem → α}
    (hg : ∀ it, g (f it) = g it) :
    ∀ (l : List MenuItem) (i : Nat), (setSlot f l i).map g = l.map g := by
  intro l
  induction l with
  | nil => intro i; rw [setSlot]
  | cons x xs ih =>
    intro i
    match i with
    | 0 => rw [setSlot, List.map_cons, List.map_cons, hg]
    | j + 1 => rw [setSlot, List.map_cons, List.map_cons, ih]

theorem stepSlot_sorted {c : Bool} {f : MenuItem → MenuItem}
    (hk : ∀ it, menuKeys (f it) = menuKeys it) (l : List MenuItem) (i : Nat)
    (h : MenuSorted l) : MenuSorted (stepSlot c f i l) := by
  unfold stepSlot
  by_cases hc : c = true
  · rw [if_pos hc]; exact setSlot_sorted hk l i h
  · rw [if_neg hc]; exact h

theorem hlookup_hinsert_self : ∀ (m : List (QStr × Nat)) (k : QStr) (v : Nat),
    hlookup (hinsert k v m) k = some v := by
  intro m
  induction m with
  | nil => intro k v; simp [hinsert, hlookup]
  | cons e rest ih =>
    intro k v
    obtain ⟨k', v'⟩ := e
    rw [hinsert]
    by_cases h : k' = k
    · rw [if_pos h]; simp [hlookup]
    · rw [if_neg h]
      rw [hlookup, List.find?_cons_of_neg _ (by simpa using h)]
      exact ih k v

theorem hlookup_hinsert_ne : ∀ (m : List (QStr × Nat)) (k k' : QStr) (v : Nat),
    k' ≠ k → hlookup (hinsert k v m) k' = hlookup m k' := by
  intro m
  induction m with
  | nil =>
    intro k k' v h
    have h' : ¬ k = k' := fun e => h e.symm
    rw [hinsert, hlookup, List.find?_cons_of_neg _ (by simpa using h')]
    rfl
  | cons e rest ih =>
    intro k k' v h
    have h' : ¬ k = k' := fun e => h e.symm
    obtain ⟨k'', v''⟩ := e
    rw [hinsert]
    by_cases hk : k'' = k
    · rw [if_pos hk]
      subst hk
      rw [hlookup, hlookup, List.find?_cons_of_neg _ (by simpa using h'),
        List.find?_cons_of_neg _ (by simpa using h')]
    · rw [if_neg hk]
      by_cases hx : k'' = k'
      · rw [hlookup, hlookup, List.find?_cons_of_pos _ (by simpa using hx),
          List.find?_cons_of_pos _ (by simpa using hx)]
      · rw [hlookup, hlookup, List.find?_cons_of_neg _ (by simpa using hx),
          List.find?_cons_of_neg _ (by simpa using hx)]
        exact ih k k' v h

theorem hcontains_hinsert : ∀ (m : List (QStr × Nat)) (k k' : QStr) (v : Nat),
    hcontains (hinsert k v m) k' = (decide (k' = k) || hcontains m k') := by
  intro m k k' v
  by_cases h : k' = k
  · subst h
    rw [hcontains, hlookup_hinsert_self]
    simp
  · rw [hcontains, hlookup_hinsert_ne m k k' v h]
    simp [h, hcontains]

theorem hcontains_rebuildIndexGo : ∀ (items : List MenuItem) (k : Nat)
    (m : List (QStr × Nat)) (id : QStr),
    hcontains (rebuildIndexGo items k m) id =
      ((items.any fun it => it.id = id) || hcontains m id) := by
  intro items
  induction items with
  | nil => intro k m id; rw [rebuildIndexGo]; simp
  | cons it rest ih =>
    intro k m id
    rw [rebuildIndexGo, ih, List.any_cons, hcontains_hinsert]
    by_cases h : it.id = id
    · simp [h]
    · have h2 : ¬ id = it.id := fun e => h e.symm
      simp [h, h2, Bool.or_assoc]

theorem hcontains_rebuildIndex (items : List MenuItem) (id : QStr) :
    hcontains (rebuildIndex items) id = (items.any fun it => it.id = id) := by
  rw [rebuildIndex, hcontains_rebuildIndexGo]
  simp [hcontains, hlookup]

theorem hlookup_rebuildIndexGo : ∀ (items : List MenuItem) (k : Nat)
    (m : List (QStr × Nat)) (id : QStr) (i : Nat),
    hlookup (rebuildIndexGo items k m) id = some i →
    (∃ j it, items[j]? = some it ∧ it.id = id ∧ i = k + j) ∨
      ((∀ it ∈ items, it.id ≠ id) ∧ hlookup m id = some i) := by
  intro items
  induction items with
  | nil => intro k m id i h; rw [rebuildIndexGo] at h; exact Or.inr ⟨by simp, h⟩
  | cons it rest ih =>
    intro k m id i h
    rw [rebuildIndexGo] at h
    rcases ih (k + 1) (hinsert it.id k m) id i h with ⟨j, it', hj, hid, hi⟩ | ⟨hall, hm⟩
    · exact Or.inl ⟨j + 1, it', by simpa using hj, hid, by omega⟩
    · by_cases hx : it.id = id
      · subst hx
        rw [hlookup_hinsert_self] at hm
        have hki : k = i := by simpa using hm
        exact Or.inl ⟨0, it, by simp, rfl, by omega⟩
      · rw [hlookup_hinsert_ne m it.id id k (fun e => hx e.symm)] at hm
        refine Or.inr ⟨?_, hm⟩
        intro x hxm
        rcases List.mem_cons.mp hxm with hxm | hxm
        · subst hxm; exact hx
        · exact hall x hxm

theorem rebuildIndex_slot {items : List MenuItem} {id : QStr} {i : Nat}
    (h : hlookup (rebuildIndex items) id = some i) :
    ∃ it, items[i]? = some it ∧ it.id = id := by
  rcases hlookup_rebuildIndexGo items 0 [] id i h with ⟨j, it, hj, hid, hi⟩ | ⟨_, hm⟩
  · exact ⟨it, by simpa [hi] using hj, hid⟩
  · simp [hlookup] at hm

/-- The stored item found for an id (`std::find_if` by id). -/
def findItem (items : List MenuItem) (id : QStr) : Option MenuItem :=
  items.find? fun it => it.id = id

/-- The label of the stored item with the given id. -/
def findLabel (items : List MenuItem) (id : QStr) : Option QStr :=
  (findItem items id).map MenuItem.label

theorem findItem_eq_of_nodup : ∀ {items : List MenuItem} {x : MenuItem} {id : QStr},
    (items.map MenuItem.id).Nodup → x ∈ items → x.id = id →
    findItem items id = some x := by
  intro items
  induction items with
  | nil => intro x id _ hx; simp at hx
  | cons y ys ih =>
    intro x id hn hx hid
    rw [List.map_cons, List.nodup_cons] at hn
    rcases List.mem_cons.mp hx with hx | hx
    · subst hx
      rw [findItem, List.find?_cons_of_pos _ (by simpa using hid)]
    · have hy : ¬ y.id = id := by
        intro hy
        exact hn.1 (by
          rw [hy, ← hid]
          exact List.mem_map_of_mem MenuItem.id hx)
      rw [findItem, List.find?_cons_of_neg _ (by simpa using hy)]
      exact ih hn.2 hx hid

theorem findItem_perm {items items' : List MenuItem} {id : QStr}
    (hp : items.Perm items') (hn : (items.map MenuItem.id).Nodup) :
    findItem items id = findItem items' id := by
  cases h : findItem items id with
  | none =>
    cases h2 : findItem items' id with
    | none => rfl
    | some y =>
      have hy : y ∈ items' := List.mem_of_find?_eq_some h2
      have hyid : y.id = id := by simpa using List.find?_some h2
      have h3 : findItem items id = some y :=
        findItem_eq_of_nodup hn (hp.mem_iff.mpr hy) hyid
      rw [h] at h3
      exact Option.noConfusion h3
  | some x =>
    have hx : x ∈ items := List.mem_of_find?_eq_some h
    have hpx : x.id = id := by simpa using List.find?_some h
    have hn' : (items'.map MenuItem.id).Nodup := (hp.map MenuItem.id).nodup_iff.mp hn
    rw [findItem_eq_of_nodup hn' (hp.mem_iff.mp hx) hpx]

theorem findLabel_setSlot {f : MenuItem → MenuItem}
    (hid : ∀ it, (f it).id = it.id) (hlab : ∀ it, (f it).label = it.label) :
    ∀ (items : List MenuItem) (i : Nat) (id : QStr),
      findLabel (setSlot f items i) id = findLabel items id := by
  intro items
  induction items with
  | nil => intro i id; rw [setSlot]
  | cons x xs ih =>
    intro i id
    match i with
    | 0 =>
      rw [setSlot]
      by_cases hx : x.id = id
      · rw [findLabel, findItem, List.find?_cons_of_pos _ (by simpa [hid] using hx),
          findLabel, findItem, List.find?_cons_of_pos _ (by simpa using hx)]
        simp [hlab]
      · rw [findLabel, findItem, List.find?_cons_of_neg _ (by simpa [hid] using hx),
          findLabel, findItem, List.find?_cons_of_neg _ (by simpa using hx)]
    | j + 1 =>
      rw [setSlot]
      by_cases hx : x.id = id
      · rw [findLabel, findItem, List.find?_cons_of_pos _ (by simpa using hx),
          findLabel, findItem, List.find?_cons_of_pos _ (by simpa using hx)]
      · rw [findLabel, findItem, List.find?_cons_of_neg _ (by simpa using hx),
          findLabel, findItem, List.find?_cons_of_neg _ (by simpa using hx)]
        exact ih j id

theorem findLabel_write {v : QStr} : ∀ (items : List MenuItem) (i : Nat)
    (id : QStr) (it0 : MenuItem), items[i]? = some it0 → it0.id = id →
    (items.map MenuItem.id).Nodup →
    findLabel (setSlot (fun it => { it with label := v }) items i) id = some v := by
  intro items
  induction items with
  | nil => intro i id it0 h; simp at h
  | cons x xs ih =>
    intro i id it0 hslot hid hn
    rw [List.map_cons, List.nodup_cons] at hn
    match i with
    | 0 =>
      have hx : x = it0 := by simpa using hslot
      subst hx
      rw [setSlot, findLabel, findItem, List.find?_cons_of_pos _ (by simpa using hid)]
      rfl
    | j + 1 =>
      have hslot' : xs[j]? = some it0 := by simpa using hslot
      have hx : ¬ x.id = id := by
        intro hx
        refine hn.1 ?_
        rw [hx, ← hid]
        exact List.mem_map_of_mem MenuItem.id (List.getElem?_mem hslot')
      rw [setSlot, findLabel, findItem, List.find?_cons_of_neg _ (by simpa using hx)]
      exact ih j id it0 hslot' hid hn.2

theorem findLabel_stepSlot {c : Bool} {f : MenuItem → MenuItem}
    (hid : ∀ it, (f it).id = it.id) (hlab : ∀ it, (f it).label = it.label)
    (items : List MenuItem) (i : Nat) (id : QStr) :
    findLabel (stepSlot c f i items) id = findLabel items id := by
  unfold stepSlot
  by_cases hc : c = true
  · rw [if_pos hc]; exact findLabel_setSlot hid hlab items i id
  · rw [if_neg hc]

theorem map_stepSlot {α : Type} {c : Bool} {f : MenuItem → MenuItem}
    {g : MenuItem → α} (hg : ∀ it, g (f it) = g it) (items : List MenuItem)
    (i : Nat) : (stepSlot c f i items).map g = items.map g := by
  unfold stepSlot
  by_cases hc : c = true
  · rw [if_pos hc]; exact map_setSlot hg items i
  · rw [if_neg hc]

theorem stepSlot_false {f : MenuItem → MenuItem} (i : Nat)
    (items : List MenuItem) : stepSlot false f i items = items := by
  rw [stepSlot, if_neg (by simp)]

theorem findLabel_sortItems {items : List MenuItem} {id : QStr}
    (hn : (items.map MenuItem.id).Nodup) :
    findLabel (sortItems items) id = findLabel items id := by
  unfold findLabel
  rw [findItem_perm (sortItems_perm items)
    (((sortItems_perm items).map MenuItem.id).nodup_iff.mpr hn)]

theorem findLabel_step_icon (c : Bool) (v : QStr) (i : Nat)
    (items : List MenuItem) (id : QStr) :
    findLabel (stepSlot c (fun it => { it with icon := v }) i items) id =
      findLabel items id := by
  apply findLabel_stepSlot
  · intro it; rfl
  · intro it; rfl

theorem findLabel_step_route (c : Bool) (v : QStr) (i : Nat)
    (items : List MenuItem) (id : QStr) :
    findLabel (stepSlot c (fun it => { it with route := v }) i items) id =
      findLabel items id := by
  apply findLabel_stepSlot
  · intro it; rfl
  · intro it; rfl

theorem findLabel_step_enabled (c : Bool) (v : Bool) (i : Nat)
    (items : List MenuItem) (id : QStr) :
    findLabel (stepSlot c (fun it => { it with enabled := v }) i items) id =
      findLabel items id := by
  apply findLabel_stepSlot
  · intro it; rfl
  · intro it; rfl

theorem findLabel_step_badge (c : Bool) (v : QStr) (i : Nat)
    (items : List MenuItem) (id : QStr) :
    findLabel (stepSlot c (fun it => { it with badge := v }) i items) id =
      findLabel items id := by
  apply findLabel_stepSlot
  · intro it; rfl
  · intro it; rfl

theorem findLabel_step_group (c : Bool) (v : QStr) (i : Nat)
    (items : List MenuItem) (id : QStr) :
    findLabel (stepSlot c (fun it => { it with group := v }) i items) id =
      findLabel items id := by
  apply findLabel_stepSlot
  · intro it; rfl
  · intro it; rfl

theorem findLabel_set_order (v : Int) (i : Nat)
    (items : List MenuItem) (id : QStr) :
    findLabel (setSlot (fun it => { it with order := v }) items i) id =
      findLabel items id := by
  apply findLabel_setSlot
  · intro it; rfl
  · intro it; rfl

theorem map_id_step_icon (c : Bool) (v : QStr) (i : Nat) (items : List MenuItem) :
    (stepSlot c (fun it => { it with icon := v }) i items).map MenuItem.id =
      items.map MenuItem.id := by
  apply map_stepSlot
  intro it; rfl

theorem map_id_step_route (c : Bool) (v : QStr) (i : Nat) (items : List MenuItem) :
    (stepSlot c (fun it => { it with route := v }) i items).map MenuItem.id =
      items.map MenuItem.id := by
  apply map_stepSlot
  intro it; rfl

theorem map_id_set_order (v : Int) (i : Nat) (items : List MenuItem) :
    (setSlot (fun it => { it with order := v }) items i).map MenuItem.id =
      items.map MenuItem.id := by
  apply map_setSlot
  intro it; rfl

theorem map_id_set_label (v : QStr) (i : Nat) (items : List MenuItem) :
    (setSlot (fun it => { it with label := v }) items i).map MenuItem.id =
      items.map MenuItem.id := by
  apply map_setSlot
  intro it; rfl

theorem map_id_step_label (c : Bool) (v : QStr) (i : Nat) (items : List MenuItem) :
    (stepSlot c (fun it => { it with label := v }) i items).map MenuItem.id =
      items.map MenuItem.id := by
  apply map_stepSlot
  intro it; rfl

theorem findLabel_updateTail (u : VMap) (idx : Nat) (id : QStr)
    (items : List MenuItem) (m0 : List (QStr × Nat))
    (hn : (items.map MenuItem.id).Nodup) :
    findLabel (updateTail u idx items m0).1 id = findLabel items id := by
  simp only [updateTail]
  by_cases ho : mcontains u keyOrder = true
  · simp only [ho, if_true]
    rw [findLabel_step_group, findLabel_step_badge, findLabel_step_enabled]
    have hm : ((setSlot (fun it => { it with order := toQInt (mvalue u keyOrder) })
        (stepSlot (mcontains u keyRoute)
          (fun it => { it with route := toQString (mvalue u keyRoute) }) idx
          (stepSlot (mcontains u keyIcon)
            (fun it => { it with icon := toQString (mvalue u keyIcon) }) idx items))
        idx).map MenuItem.id).Nodup := by
      rw [map_id_set_order, map_id_step_route, map_id_step_icon]
      exact hn
    rw [findLabel_sortItems hm, findLabel_set_order, findLabel_step_route,
      findLabel_step_icon]
  · simp only [eq_false_of_ne_true ho, Bool.false_eq_true, if_false]
    rw [findLabel_step_group, findLabel_step_badge, findLabel_step_enabled,
      findLabel_step_route, findLabel_step_icon]

theorem sorted_updateTail (u : VMap) (idx : Nat) (items : List MenuItem)
    (m0 : List (QStr × Nat)) (hg : mcontains u keyGroup = false)
    (h : MenuSorted items) : MenuSorted (updateTail u idx items m0).1 := by
  simp only [updateTail, hg, stepSlot_false]
  by_cases ho : mcontains u keyOrder = true
  · simp only [ho, if_true]
    apply stepSlot_sorted
    · intro it; rfl
    apply stepSlot_sorted
    · intro it; rfl
    exact sortItems_sorted _
  · simp only [eq_false_of_ne_true ho, Bool.false_eq_true, if_false]
    apply stepSlot_sorted
    · intro it; rfl
    apply stepSlot_sorted
    · intro it; rfl
    apply stepSlot_sorted
    · intro it; rfl
    apply stepSlot_sorted
    · intro it; rfl
    exact h

/-! ## Route lookup lemmas -/

theorem findPageUrl_spec : ∀ (entries : NavState) (p : QStr),
    findPageUrl entries p =
      match entries.find? fun e => e.pattern = p with
      | some e => (e.pageUrl, [NavLog.debug])
      | none => ([], [NavLog.warning]) := by
  intro entries
  induction entries with
  | nil => intro p; rfl
  | cons e rest ih =>
    intro p
    by_cases h : e.pattern = p
    · rw [findPageUrl, if_pos h, List.find?_cons_of_pos _ (by simpa using h),
        deepCopyS_eq]
    · rw [findPageUrl, if_neg h, List.find?_cons_of_neg _ (by simpa using h), ih]

theorem find?_routeEntry_map (p : QStr) : ∀ calls : List (QStr × QStr),
    ((calls.map fun c => (⟨c.1, c.2⟩ : RouteEntry)).find? fun e => e.pattern = p) =
      (calls.find? fun c => c.1 = p).map fun c => (⟨c.1, c.2⟩ : RouteEntry) := by
  intro calls
  induction calls with
  | nil => rfl
  | cons c rest ih =>
    by_cases h : c.1 = p
    · rw [List.map_cons, List.find?_cons_of_pos _ (by simpa using h),
        List.find?_cons_of_pos _ (by simpa using h)]
      rfl
    · rw [List.map_cons, List.find?_cons_of_neg _ (by simpa using h),
        List.find?_cons_of_neg _ (by simpa using h), ih]

/-! ## The claims -/

/-- C2: applying `materializeLocally` (deepCopy) twice yields a result
value-equal to applying it once, for strings, string lists, byte buffers,
ordered lists and key-value maps. -/
theorem C2_deepCopy_idempotent :
    (∀ s : QStr, deepCopyS (deepCopyS s) = deepCopyS s) ∧
    (∀ l : List QStr, deepCopyL (deepCopyL l) = deepCopyL l) ∧
    (∀ b : QBytes, deepCopyB (deepCopyB b) = deepCopyB b) ∧
    (∀ l : List QVariant, deepCopyVL (deepCopyVL l) = deepCopyVL l) ∧
    (∀ m : VMap, deepCopyM (deepCopyM m) = deepCopyM m) :=
  ⟨fun s => by rw [deepCopyS_eq], fun l => by rw [deepCopyL_eq],
   fun b => by rw [deepCopyB_eq], deepCopyVL_idem, deepCopyM_idem⟩

/-- C7: `materializeLocally` is value-preserving on every well-formed variant
value; it is the identity on scalar/primitive values and passes unknown value
kinds (`prim tag payload`) and invalid variants through unchanged. -/
theorem C7_deepCopy_value_preserving :
    (∀ v : QVariant, VWF v = true → deepCopyV v = v) ∧
    (∀ (t : Nat) (p : Int), deepCopyV (QVariant.prim t p) = QVariant.prim t p) ∧
    deepCopyV QVariant.invalid = QVariant.invalid :=
  ⟨deepCopyV_eq_of_wf, fun t p => by rw [deepCopyV], by rw [deepCopyV]⟩

/-- A concrete well-formed variant exercising the map and list cases. -/
def variantExample : QVariant :=
  QVariant.qvariantMap [(['a'], QVariant.qstring ['x']),
    (['b'], QVariant.qvariantList [QVariant.prim 2 5])]

/-- Witness for C7 at a concrete nested map/list variant. -/
theorem C7_deepCopy_value_preserving_witness :
    VWF variantExample = true ∧ deepCopyV variantExample = variantExample := by
  have h : VWF variantExample = true := by
    simp [variantExample, VWF, VWFM, VWFL, keysSortedB, strLt]
  exact ⟨h, C7_deepCopy_value_preserving.1 variantExample h⟩

/-- C4: `registerRoute` appends to the route table and never replaces an
earlier entry; after any sequence of `registerRoute` calls from the empty
table, `getPageUrl` returns the page URL of the first call whose pattern
equals the looked-up one (and the null string when none does). -/
theorem C4_route_first_match :
    (∀ (st : NavState) (r u : QStr), registerRoute st r u = st ++ [⟨r, u⟩]) ∧
    (∀ (calls : List (QStr × QStr)) (p : QStr),
      (getPageUrl (applyRegisterRoutes [] calls) p).2.1 =
        match calls.find? fun c => c.1 = p with
        | some c => c.2
        | none => []) := by
  constructor
  · intro st r u
    rw [registerRoute, deepCopyS_eq, deepCopyS_eq]
  · intro calls p
    show (findPageUrl (applyRegisterRoutes [] calls) p).1 = _
    rw [applyRegisterRoutes_eq, List.nil_append, findPageUrl_spec,
      find?_routeEntry_map]
    cases calls.find? fun c => c.1 = p with
    | none => rfl
    | some c => rfl

/-- C8: when no registered pattern equals the looked-up one, `getPageUrl`
returns the null string together with a warning log line (its only log kinds
are debug and warning — there is no fatal path) and leaves the route table
unchanged. -/
theorem C8_route_lookup_miss (st : NavState) (p : QStr)
    (h : ∀ e ∈ st, e.pattern ≠ p) :
    getPageUrl st p = (st, [], [NavLog.warning]) := by
  rw [getPageUrl, findPageUrl_spec,
    List.find?_eq_none.mpr (fun e he => by simpa using h e he)]

/-- A concrete one-entry route table. -/
def navExample : NavState := [⟨['a'], ['u']⟩]

/-- Witness for C8 at a concrete table and missing pattern. -/
theorem C8_route_lookup_miss_witness :
    (∀ e ∈ navExample, e.pattern ≠ ['b']) ∧
    getPageUrl navExample ['b'] = (navExample, [], [NavLog.warning]) :=
  ⟨by decide, C8_route_lookup_miss navExample ['b'] (by decide)⟩

/-- C6: `Application::~Application` teardown is unconditional: whenever a
plugin manager exists — whatever states and phase results its modules carry,
including any state `loadPlugins` left behind — the destructor calls
`stopAll` and then `unloadAll`, in that order. -/
theorem C6_teardown_unconditional :
    (∀ pm : PMState, appDtorTeardown (some pm) =
      [TeardownCall.stopAll, TeardownCall.unloadAll]) ∧
    (∀ pm : PMState, appDtorTeardown (some (loadPlugins pm)) =
      [TeardownCall.stopAll, TeardownCall.unloadAll]) ∧
    appDtorTeardown none = [] :=
  ⟨fun _ => rfl, fun _ => rfl, rfl⟩

/-- Module A: load failure injected (its entry point would not resolve). -/
def modA : PluginModule := ⟨['A'], 10, false, true, true, PState.Discovered⟩

/-- Module B: all lifecycle steps would succeed. -/
def modB : PluginModule := ⟨['B'], 20, true, true, true, PState.Discovered⟩

/-- Two discovered modules, A failing at load and B healthy. -/
def pmAB : PMState := ⟨[modA, modB]⟩

/-- C1 counterexample: with a load failure injected for module A, the
aggregate load result is false — and then `Application::loadPlugins` skips
`initializeAll`/`startAll` entirely, so module B ends in `Loaded`, not
`Started`, contradicting the claim that B still reaches `Started`. -/
theorem C1_counterexample :
    (loadAll pmAB).2 = false ∧
    stateOf (loadPlugins pmAB) ['B'] = some PState.Loaded ∧
    ¬ stateOf (loadPlugins pmAB) ['B'] = some PState.Started := by decide

/-- C1 amended: within `loadAll` a failing module does not stop the others —
every discovered module transitions according to its own outcome — and the
aggregate flag is false as soon as one module fails; but the application
driver proceeds to phase N+1 only when the aggregate result of phase N is
true, so a load failure for A leaves the batch at the `loadAll` result and B
never reaches `Started`. -/
theorem C1_phase_gating (pm : PMState) :
    (∀ (i : Nat) (m : PluginModule), pm.modules[i]? = some m →
      m.state = PState.Discovered →
      (loadAll pm).1.modules[i]? = some (if m.loadOk
        then { m with state := PState.Loaded }
        else { m with state := PState.Failed })) ∧
    ((∃ m ∈ pm.modules, m.state = PState.Discovered ∧ m.loadOk = false) →
      (loadAll pm).2 = false) ∧
    ((loadAll pm).2 = false → loadPlugins pm = (loadAll pm).1) := by
  refine ⟨?_, ?_, ?_⟩
  · intro i m hm hd
    rw [loadAll]
    simp [List.getElem?_map, hm, hd]
  · rintro ⟨m, hm, hd, hl⟩
    rw [loadAll]
    simp only [List.all_eq_false]
    exact ⟨m, hm, by simp [hd, hl]⟩
  · intro h
    simp only [loadPlugins]
    rw [if_neg (by simp [h])]

/-- Witness for C1's amended statement at the concrete two-module manager. -/
theorem C1_phase_gating_witness :
    (loadAll pmAB).1.modules[1]? = some { modB with state := PState.Loaded } ∧
    (loadAll pmAB).2 = false ∧
    loadPlugins pmAB = (loadAll pmAB).1 := by
  obtain ⟨h1, h2, h3⟩ := C1_phase_gating pmAB
  have hfalse : (loadAll pmAB).2 = false := h2 ⟨modA, by decide, rfl, rfl⟩
  refine ⟨?_, hfalse, h3 hfalse⟩
  have hb := h1 1 modB rfl rfl
  simpa using hb

theorem stepSlot_true {f : MenuItem → MenuItem} (i : Nat)
    (items : List MenuItem) : stepSlot true f i items = setSlot f items i := by
  rw [stepSlot, if_pos rfl]

/-- C5: `registerItem` fails and leaves the state unchanged on an empty id or
an id already present; otherwise it returns true and the item appears in the
stored list afterwards. (The hypothesis ties the index map the duplicate
check consults to the item list, as every reachable service state does.) -/
theorem C5_registerItem_contract (st : MenuState) (item : MenuItem)
    (hwf : st.indexMap = rebuildIndex st.items) :
    ((item.id = [] ∨ ∃ x ∈ st.items, x.id = item.id) →
      registerItem st item = (st, false, false)) ∧
    ((item.id ≠ [] ∧ ∀ x ∈ st.items, x.id ≠ item.id) →
      (registerItem st item).2.1 = true ∧
      item ∈ (registerItem st item).1.items) := by
  constructor
  · intro h
    rcases h with h | ⟨x, hx, hxid⟩
    · rw [registerItem, if_pos (by simp [h])]
    · by_cases he : item.id.isEmpty = true
      · rw [registerItem, if_pos he]
      · rw [registerItem, if_neg he, if_pos ?_]
        rw [hwf, hcontains_rebuildIndex]
        exact List.any_eq_true.mpr ⟨x, hx, by simp [hxid]⟩
  · rintro ⟨hne, hall⟩
    have he : ¬ item.id.isEmpty = true := by
      simp only [List.isEmpty_iff]
      exact hne
    have hc : ¬ hcontains st.indexMap item.id = true := by
      rw [hwf, hcontains_rebuildIndex]
      simp only [List.any_eq_true, not_exists]
      intro x
      rintro ⟨hx, hxid⟩
      exact hall x hx (by simpa using hxid)
    rw [registerItem, if_neg he, if_neg hc]
    refine ⟨rfl, ?_⟩
    refine (sortItems_perm _).mem_iff.mpr ?_
    refine List.mem_append_right _ ?_
    rw [deepCopyItem_eq]
    exact List.mem_singleton.mpr rfl

/-- A concrete menu item with a fresh nonempty id. -/
def itemX : MenuItem := ⟨['x'], ['l'], [], [], ['g'], 1, true, [], ['p']⟩

/-- Witness for C5's success branch at the empty service. -/
theorem C5_registerItem_contract_witness :
    (itemX.id ≠ [] ∧ ∀ x ∈ menuInit.items, x.id ≠ itemX.id) ∧
    (registerItem menuInit itemX).2.1 = true ∧
    itemX ∈ (registerItem menuInit itemX).1.items :=
  ⟨⟨by decide, by decide⟩,
   (C5_registerItem_contract menuInit itemX rfl).2 ⟨by decide, by decide⟩⟩

/-- C9 amended: each call emits `menuChanged` exactly as characterised here —
`registerItem` emits exactly when it succeeds, the unregister calls emit
exactly when they remove something, and every call that emits no notification
left the state unchanged; but `updateItem` emits whenever the id is
registered, even when the updates map changes nothing. -/
theorem C9_change_notifications (st : MenuState) (item : MenuItem)
    (id pid : QStr) (u : VMap) :
    ((registerItem st item).2.2 = (registerItem st item).2.1 ∧
      ((registerItem st item).2.2 = false → (registerItem st item).1 = st)) ∧
    ((unregisterItem st id).2 = (st.items.any fun it => it.id = id) ∧
      ((unregisterItem st id).2 = false → (unregisterItem st id).1 = st)) ∧
    ((unregisterPlugin st pid).2 = (st.items.any fun it => it.pluginId = pid) ∧
      ((unregisterPlugin st pid).2 = false → (unregisterPlugin st pid).1 = st)) ∧
    ((updateItem st id u).2.2 = hcontains st.indexMap id ∧
      ((updateItem st id u).2.2 = false → (updateItem st id u).1 = st)) := by
  refine ⟨⟨?_, ?_⟩, ⟨?_, ?_⟩, ⟨?_, ?_⟩, ⟨?_, ?_⟩⟩
  · rw [registerItem]
    split_ifs <;> rfl
  · rw [registerItem]
    split_ifs
    · intro _; rfl
    · intro _; rfl
    · intro h; simp at h
  · rw [unregisterItem]
    split_ifs with h
    · exact h.symm
    · exact (eq_false_of_ne_true h).symm
  · rw [unregisterItem]
    split_ifs with h
    · intro h'; simp at h'
    · intro _; rfl
  · rw [unregisterPlugin]
    split_ifs with h
    · exact h.symm
    · exact (eq_false_of_ne_true h).symm
  · rw [unregisterPlugin]
    split_ifs with h
    · intro h'; simp at h'
    · intro _; rfl
  · cases h : hlookup st.indexMap id with
    | none => simp [updateItem, h, hcontains]
    | some idx => simp [updateItem, h, hcontains]
  · cases h : hlookup st.indexMap id with
    | none => intro _; simp [updateItem, h]
    | some idx => intro h'; simp [updateItem, h] at h'

/-- The service holding just `itemX`. -/
def menuStX : MenuState := (registerItem menuInit itemX).1

/-- C9 counterexample: `updateItem` on a registered id with an empty updates
map leaves the whole state (item list included) unchanged, yet still emits
the `menuChanged` notification — so a call that leaves the list unchanged can
raise a notification. -/
theorem C9_counterexample :
    (updateItem menuStX ['x'] []).1 = menuStX ∧
    (updateItem menuStX ['x'] []).2.2 = true := by decide

/-- Witness for C9's conditional parts: a failed `registerItem` (duplicate
id) emits nothing and leaves the state unchanged, and an `unregisterItem`
miss likewise. -/
theorem C9_change_notifications_witness :
    (registerItem menuStX itemX).2.2 = false ∧
    (registerItem menuStX itemX).1 = menuStX ∧
    (unregisterItem menuStX ['z']).2 = false ∧
    (unregisterItem menuStX ['z']).1 = menuStX := by
  obtain ⟨⟨_, hreg⟩, ⟨_, hunreg⟩, _, _⟩ :=
    C9_change_notifications menuStX itemX ['z'] ['q'] []
  have h1 : (registerItem menuStX itemX).2.2 = false := by decide
  have h2 : (unregisterItem menuStX ['z']).2 = false := by decide
  exact ⟨h1, hreg h1, h2, hunreg h2⟩

/-- C10: when the updates map has a `label` key but no `title` key the item's
label is untouched; when it has a `title` key the label is set from the value
under `label` — a string value verbatim, the empty string when `label` is
absent. -/
theorem C10_title_label_quirk (st : MenuState) (id : QStr) (u : VMap)
    (hwf : st.indexMap = rebuildIndex st.items)
    (hnodup : (st.items.map MenuItem.id).Nodup)
    (hreg : hcontains st.indexMap id = true) :
    (mcontains u keyLabel = true → mcontains u keyTitle = false →
      findLabel (updateItem st id u).1.items id = findLabel st.items id) ∧
    (mcontains u keyTitle = true →
      (∀ s : QStr, mlookup u keyLabel = some (QVariant.qstring s) →
        findLabel (updateItem st id u).1.items id = some s) ∧
      (mlookup u keyLabel = none →
        findLabel (updateItem st id u).1.items id = some [])) := by
  obtain ⟨idx, hidx⟩ : ∃ idx, hlookup st.indexMap id = some idx := by
    rw [hcontains] at hreg
    exact Option.isSome_iff_exists.mp hreg
  obtain ⟨it0, hslot, hid0⟩ := rebuildIndex_slot (hwf ▸ hidx)
  constructor
  · intro _ hT
    simp only [updateItem, hidx]
    rw [hT, stepSlot_false]
    exact findLabel_updateTail u idx id st.items st.indexMap hnodup
  · intro hT
    constructor
    · intro s hs
      simp only [updateItem, hidx]
      rw [hT, stepSlot_true]
      have hval : toQString (mvalue u keyLabel) = s := by
        rw [mvalue, hs]
        rfl
      simp only [hval]
      rw [findLabel_updateTail u idx id _ st.indexMap
        (by rw [map_id_set_label]; exact hnodup)]
      exact findLabel_write st.items idx id it0 hslot hid0 hnodup
    · intro hs
      simp only [updateItem, hidx]
      rw [hT, stepSlot_true]
      have hval : toQString (mvalue u keyLabel) = [] := by
        rw [mvalue, hs]
        rfl
      simp only [hval]
      rw [findLabel_updateTail u idx id _ st.indexMap
        (by rw [map_id_set_label]; exact hnodup)]
      exact findLabel_write st.items idx id it0 hslot hid0 hnodup

/-- A concrete updates map carrying `title` and a string `label` value. -/
def updTitle : VMap :=
  [(keyTitle, QVariant.prim 1 1), (keyLabel, QVariant.qstring ['n'])]

/-- Witness for C10 at the one-item service: a `title` update sets the label
from the `label` value. -/
theorem C10_title_label_quirk_witness :
    mcontains updTitle keyTitle = true ∧
    mlookup updTitle keyLabel = some (QVariant.qstring ['n']) ∧
    findLabel (updateItem menuStX ['x'] updTitle).1.items ['x'] = some ['n'] := by
  refine ⟨by decide, rfl, ?_⟩
  exact ((C10_title_label_quirk menuStX ['x'] updTitle (by decide) (by decide)
    (by decide)).2 (by decide)).1 ['n'] rfl

theorem registerItem_sorted (st : MenuState) (item : MenuItem)
    (h : MenuSorted st.items) : MenuSorted (registerItem st item).1.items := by
  rw [registerItem]
  split_ifs
  · exact h
  · exact h
  · exact sortItems_sorted _

theorem unregisterItem_sorted (st : MenuState) (id : QStr)
    (h : MenuSorted st.items) : MenuSorted (unregisterItem st id).1.items := by
  rw [unregisterItem]
  split_ifs
  · exact List.Pairwise.sublist (List.eraseP_sublist _) h
  · exact h

theorem unregisterPlugin_sorted (st : MenuState) (pid : QStr)
    (h : MenuSorted st.items) : MenuSorted (unregisterPlugin st pid).1.items := by
  rw [unregisterPlugin]
  split_ifs
  · exact List.Pairwise.sublist (List.filter_sublist _) h
  · exact h

theorem updateItem_sorted (st : MenuState) (id : QStr) (u : VMap)
    (hT : mcontains u keyTitle = false) (hG : mcontains u keyGroup = false)
    (h : MenuSorted st.items) : MenuSorted (updateItem st id u).1.items := by
  cases hl : hlookup st.indexMap id with
  | none => simp only [updateItem, hl]; exact h
  | some idx =>
    simp only [updateItem, hl]
    rw [hT, stepSlot_false]
    exact sorted_updateTail u idx st.items st.indexMap hG h

theorem applyMenuOp_sorted (st : MenuState) (op : MenuOp)
    (hop : ∀ id u, op = MenuOp.update id u →
      mcontains u keyTitle = false ∧ mcontains u keyGroup = false)
    (h : MenuSorted st.items) : MenuSorted (applyMenuOp st op).items := by
  cases op with
  | register item => exact registerItem_sorted st item h
  | unregister id => exact unregisterItem_sorted st id h
  | unregisterPlugin pid => exact unregisterPlugin_sorted st pid h
  | update id u =>
    obtain ⟨hT, hG⟩ := hop id u rfl
    exact updateItem_sorted st id u hT hG h

/-- Item with group B, order 1. -/
def itemB1 : MenuItem := ⟨['1'], [], [], [], ['B'], 1, true, [], ['p']⟩

/-- Item with group A, order 2. -/
def itemA2 : MenuItem := ⟨['2'], [], [], [], ['A'], 2, true, [], ['p']⟩

/-- Item with group A, order 1. -/
def itemA1 : MenuItem := ⟨['3'], [], [], [], ['A'], 1, true, [], ['p']⟩

/-- C3 amended: for every call sequence whose `updateItem` maps carry neither
the `group` key nor the `title` key, the stored item list stays sorted by
(group, order, label); and registering items with (group, order) pairs
(B,1), (A,2), (A,1) yields iteration order A/1, A/2, B/1. (An `updateItem`
whose map carries `group` — or `title`, which rewrites the label — mutates a
sort key without re-sorting, which is what the counterexample exhibits.) -/
theorem C3_menu_sorted_invariant (ops : List MenuOp)
    (hops : ∀ op ∈ ops, ∀ id u, op = MenuOp.update id u →
      mcontains u keyTitle = false ∧ mcontains u keyGroup = false) :
    MenuSorted (applyMenuOps menuInit ops).items ∧
    ((applyMenuOps menuInit [MenuOp.register itemB1, MenuOp.register itemA2,
        MenuOp.register itemA1]).items.map fun it => (it.group, it.order)) =
      [(['A'], 1), (['A'], 2), (['B'], 1)] := by
  constructor
  · have main : ∀ (l : List MenuOp) (st : MenuState),
        (∀ op ∈ l, ∀ id u, op = MenuOp.update id u →
          mcontains u keyTitle = false ∧ mcontains u keyGroup = false) →
        MenuSorted st.items → MenuSorted (applyMenuOps st l).items := by
      intro l
      induction l with
      | nil => intro st _ h; exact h
      | cons op rest ih =>
        intro st hl h
        exact ih _ (fun o ho => hl o (List.mem_cons_of_mem _ ho))
          (applyMenuOp_sorted st op (hl op (List.mem_cons_self _ _)) h)
    exact main ops menuInit hops List.Pairwise.nil
  · decide

/-- Witness for C3's amended statement on a sequence with a benign update. -/
theorem C3_menu_sorted_invariant_witness :
    MenuSorted (applyMenuOps menuInit [MenuOp.register itemB1,
      MenuOp.register itemA2, MenuOp.register itemA1,
      MenuOp.update ['2'] [(keyBadge, QVariant.qstring ['!'])]]).items ∧
    ((applyMenuOps menuInit [MenuOp.register itemB1, MenuOp.register itemA2,
        MenuOp.register itemA1]).items.map fun it => (it.group, it.order)) =
      [(['A'], 1), (['A'], 2), (['B'], 1)] := by
  refine (C3_menu_sorted_invariant _ ?_)
  intro op hop id u he
  simp only [List.mem_cons, List.mem_singleton] at hop
  rcases hop with h | h | h | h | h
  · subst h; cases he
  · subst h; cases he
  · subst h; cases he
  · subst h
    cases he
    constructor <;> decide
  · cases h

/-- The group update that breaks the ordering invariant. -/
def updGroupC : VMap := [(keyGroup, QVariant.qstring ['C'])]

/-- C3 counterexample: after registering two items sorted as A/1, B/1, an
`updateItem` whose map carries only the `group` key rewrites the first item's
group to C without re-sorting, leaving the stored list C/1, B/1 — not sorted
by (group, order, label). -/
theorem C3_counterexample :
    ¬ MenuSorted (applyMenuOps menuInit [MenuOp.register itemA1,
      MenuOp.register itemB1, MenuOp.update ['3'] updGroupC]).items := by
  rw [← isSortedMenu_iff]
  decide

end Mpf
